import Mathlib

/-!
# Verification of the llm_flow dataflow-graph engine

Shallow embedding of the core engine of the repository
(`src/graph/connections.py`, `src/graph/blocks/block.py`, `src/graph/graph.py`)
together with proofs settling the frozen claims about it.

Conventions used throughout:
* Python `None` is `Option.none`; a fallible Python operation returns
  `Except` / `Option` (where `none` additionally marks the one operation
  that can loop forever, this is said at the definition).
* Python sets/dicts are embedded as lists; a Python `dict` preserves
  insertion order, so association lists with update-in-place/append
  semantics (`updL` below) reproduce it exactly.
* Random identifiers (`randomIdentifier()`) are embedded as explicit
  parameters ("fresh" arguments) supplied by the caller.
-/

namespace LlmFlow

/-! ## Value cells  (`connections.py`, class `VariableValue`)

Port values are opaque Python objects.  For the claims about cells and
ports a value is `Option Int`: `none` is Python `None`, and Python `!=`
on such values coincides with structural disequality. -/

/-- State of a `VariableValue`: the single mutable carrier of a port's
datum with its `available` and `reliable` flags. -/
structure VarValue where
  value : Option Int
  available : Bool
  reliable : Bool
  deriving Repr, DecidableEq

/-- `VariableValue.__init__(value)`: `_available = value is not None`,
`_reliable = False`. -/
def VarValue.init (v : Option Int) : VarValue :=
  { value := v, available := v ≠ none, reliable := false }

/-- `VariableValue.makeReliable`. -/
def VarValue.makeReliable (c : VarValue) : VarValue := { c with reliable := true }

/-- `VariableValue.makeUnreliable`. -/
def VarValue.makeUnreliable (c : VarValue) : VarValue := { c with reliable := false }

/-- `VariableValue.makeAvailable`. -/
def VarValue.makeAvailable (c : VarValue) : VarValue := { c with available := true }

/-- `VariableValue.makeUnavailable`. -/
def VarValue.makeUnavailable (c : VarValue) : VarValue := { c with available := false }

/-- `VariableValue.setValue(value)`: stores the value, then
`makeAvailable()` and `makeReliable()`. -/
def VarValue.setValue (c : VarValue) (v : Option Int) : VarValue :=
  { c with value := v, available := true, reliable := true }

/-- `Port.__init__` wraps a raw (non-`VariableValue`) value into a fresh
`VariableValue(value)`; with no value it uses `VariableValue()`.  This is
the cell a port seeded at creation starts with. -/
def portInitCell (v : Option Int) : VarValue := VarValue.init v

/-! ## Association lists standing in for Python dicts

A Python dict preserves insertion order; writing an existing key keeps its
position, writing a new key appends.  `updL` reproduces exactly that. -/

/-- Python `d[k] = v` on an insertion-ordered dict. -/
def updL {α β : Type} [DecidableEq α] : List (α × β) → α → β → List (α × β)
  | [], k, v => [(k, v)]
  | (k', v') :: rest, k, v =>
      if k' = k then (k, v) :: rest else (k', v') :: updL rest k v

/-- Python `d.get(k)` / `d[k]`. -/
def lookupL {α β : Type} [DecidableEq α] : List (α × β) → α → Option β
  | [], _ => none
  | (k', v') :: rest, k => if k' = k then some v' else lookupL rest k

/-! ## Ports wired into blocks  (`connections.py` `Port`, `block.py` `BaseBlock`)

The state needed by `Port.setValue` and `BaseBlock.makeOutputsUnreliable`:
every port has a value cell, an orientation (the kind of its parent hub)
and the block its hub belongs to; connections are directed pairs of port
ids.  Only fully wired connections are modelled (both endpoints set), the
configuration in which these operations run. -/

/-- A port as `Port.setValue` sees it: its cell, whether its parent hub is
an input hub, and the parent block of that hub. -/
structure PortW where
  cell : VarValue
  isInput : Bool
  blockId : Nat
  deriving Repr, DecidableEq

/-- The mutable state the reliability protocol walks over. -/
structure World where
  ports : List (Nat × PortW)
  conns : List (Nat × Nat)
  deriving Repr, DecidableEq

/-- Look a port up by id. -/
def World.port (w : World) (p : Nat) : Option PortW := lookupL w.ports p

/-- Replace port `p`'s cell. -/
def World.setCell (w : World) (p : Nat) (c : VarValue) : World :=
  { w with ports := w.ports.map fun q => if q.1 = p then (q.1, { q.2 with cell := c }) else q }

/-- Is `p` a port of block `b`'s output hub? -/
def World.isOutPortOf (w : World) (b p : Nat) : Bool :=
  match w.port p with
  | some pw => pw.blockId == b && !pw.isInput
  | none => false

/-- `port.connections`: the connections added to port `p` (a connection is
added to both of its endpoint ports). -/
def World.portConns (w : World) (p : Nat) : List (Nat × Nat) :=
  w.conns.filter fun c => c.1 == p || c.2 == p

/-- `BaseBlock.getOutgoingConnections()`: the union of the output hub's
ports' connection sets. -/
def World.outgoingConns (w : World) (b : Nat) : List (Nat × Nat) :=
  w.conns.filter fun c => w.isOutPortOf b c.1 || w.isOutPortOf b c.2

/-- `connection.from_block` (modelled worlds are fully wired, so the
endpoint lookup is defaulted). -/
def World.fromBlockD (w : World) (c : Nat × Nat) : Nat :=
  ((w.port c.1).map PortW.blockId).getD 0

/-- `connection.to_block`. -/
def World.toBlockD (w : World) (c : Nat × Nat) : Nat :=
  ((w.port c.2).map PortW.blockId).getD 0

def dedupFirstAux (seen : List Nat) : List Nat → List Nat
  | [] => []
  | x :: xs => if x ∈ seen then dedupFirstAux seen xs else x :: dedupFirstAux (x :: seen) xs

/-- Keep first occurrences: stands in for collecting into a Python set and
iterating it (the set's iteration order is unspecified; the model fixes
first-insertion order). -/
def dedupFirst (l : List Nat) : List Nat := dedupFirstAux [] l

/-- `BaseBlock.getOutgoingNeighbors()`: for each outgoing connection take
`from_block` when it is not the block itself, else `to_block`. -/
def World.outgoingNeighbors (w : World) (b : Nat) : List Nat :=
  dedupFirst ((w.outgoingConns b).map fun c =>
    if w.fromBlockD c ≠ b then w.fromBlockD c else w.toBlockD c)

/-- Mark every port of block `b`'s output hub unreliable (first half of
`makeOutputsUnreliable`). -/
def World.markOutputsLocal (w : World) (b : Nat) : World :=
  { w with ports := w.ports.map fun q =>
      if q.2.blockId == b && !q.2.isInput then (q.1, { q.2 with cell := q.2.cell.makeUnreliable }) else q }

/-- `BaseBlock.makeOutputsUnreliable()`: mark own outputs unreliable, then
recurse into every outgoing neighbor.  The Python recursion does not
terminate on a cyclic graph, hence the fuel; `none` models divergence. -/
def makeOutputsUnreliable : Nat → World → Nat → Option World
  | 0, _, _ => none
  | fuel + 1, w, b =>
      let w1 := w.markOutputsLocal b
      (w1.outgoingNeighbors b).foldlM (fun wacc nb => makeOutputsUnreliable fuel wacc nb) w1

/-- `Port.setValue(value, propagate)`.  The cell is always written (which
sets `available` and `reliable`); on a *changed* value an input port
invalidates its block's outputs, an output port pushes the value to the
`to_port` of each connection with `propagate=False`. -/
def setValuePort : Nat → World → Nat → Option Int → Bool → Option World
  | 0, _, _, _, _ => none
  | fuel + 1, w, p, v, propagate =>
      match w.port p with
      | none => none
      | some pw =>
          let changed := pw.cell.value != v
          let w1 := w.setCell p (pw.cell.setValue v)
          if pw.isInput && propagate && changed then
            makeOutputsUnreliable fuel w1 pw.blockId
          else if !pw.isInput && propagate && changed then
            (w1.portConns p).foldlM
              (fun wacc c => setValuePort fuel wacc c.2 v false) w1
          else
            some w1

/-! ## Hubs  (`connections.py`, class `ConnectionHub`)

For `addPort` only the editability flag and the ordered list of port names
matter (the fresh `Port` object is inspected by no part of the claim). -/

structure HubM where
  editable : Bool
  portNames : List String
  deriving Repr, DecidableEq

/-- Every way `ConnectionHub.addPort` can come back. -/
inductive AddPortOutcome where
  | ok (name : String) (hub : HubM)
  | hubNotEditable
  | duplicatePortName
  | loopsForever
  deriving Repr, DecidableEq

/-- The name-generation loop of `addPort`:
`while True: var_name = f"var{self.numPorts + 1}"; if var_name not in self.portDict: break`.
`numPorts` does not change inside the loop, so the candidate is the same on
every iteration: either the first iteration breaks, or no iteration ever
does.  `none` models the infinite loop. -/
def autoPortName (h : HubM) : Option String :=
  let cand := "var" ++ toString (h.portNames.length + 1)
  if cand ∈ h.portNames then none else some cand

/-- `ConnectionHub.addPort(var_name, connection)`: the `@check_editable`
decorator fires first; a missing name is generated by `autoPortName`; a
colliding explicit name raises `PortVariableNameError`. -/
def addPort (h : HubM) (varName : Option String) : AddPortOutcome :=
  if !h.editable then .hubNotEditable
  else
    match varName with
    | none =>
        match autoPortName h with
        | none => .loopsForever
        | some cand =>
            if cand ∈ h.portNames then .duplicatePortName
            else .ok cand { h with portNames := h.portNames ++ [cand] }
    | some n =>
        if n ∈ h.portNames then .duplicatePortName
        else .ok n { h with portNames := h.portNames ++ [n] }

/-! ## Theorems: cells and ports (claims C9, C8, C2) -/

/-- C9: every `VariableValue` is constructed with `reliable = false`, even
with a non-`None` initial value; of all cell operations only `setValue`
and `makeReliable` can turn `reliable` on, so a port seeded with a value
at creation is available but unreliable. -/
theorem cell_created_unreliable :
    (∀ v : Option Int, (VarValue.init v).reliable = false)
    ∧ (∀ n : Int,
        (portInitCell (some n)).available = true ∧ (portInitCell (some n)).reliable = false)
    ∧ (∀ c : VarValue,
        (c.makeUnreliable).reliable = false
        ∧ (c.makeAvailable).reliable = c.reliable
        ∧ (c.makeUnavailable).reliable = c.reliable
        ∧ (∀ v, (c.setValue v).reliable = true)
        ∧ (c.makeReliable).reliable = true) :=
  ⟨fun _ => rfl, fun _ => ⟨rfl, rfl⟩, fun _ => ⟨rfl, rfl, rfl, fun _ => rfl, rfl⟩⟩

theorem lookupL_cons {α β : Type} [DecidableEq α] (a : α) (b : β) (rest : List (α × β)) (k : α) :
    lookupL ((a, b) :: rest) k = if a = k then some b else lookupL rest k := rfl

theorem lookupL_map_cell (l : List (Nat × PortW)) (p k : Nat) (f : PortW → PortW) :
    lookupL (l.map fun q => if q.1 = p then (q.1, f q.2) else q) k
      = if k = p then (lookupL l k).map f else lookupL l k := by
  induction l with
  | nil => by_cases h : k = p <;> simp [lookupL, h]
  | cons q rest ih =>
      obtain ⟨a, b⟩ := q
      by_cases hq : a = p
      · subst hq
        by_cases hk : k = a
        · subst hk
          simp [lookupL_cons, ih]
        · simp [lookupL_cons, hk, Ne.symm hk, ih]
      · by_cases hk : k = p
        · subst hk
          simp [lookupL_cons, hq, ih]
        · by_cases hak : a = k
          · subst hak
            simp [lookupL_cons, hq, hk]
          · simp [lookupL_cons, hq, hak, hk, ih]

theorem World.port_setCell (w : World) (p k : Nat) (c : VarValue) :
    (w.setCell p c).port k
      = if k = p then (w.port k).map (fun pw => { pw with cell := c }) else w.port k := by
  have h := lookupL_map_cell w.ports p k (fun pw => { pw with cell := c })
  simpa [World.port, World.setCell] using h

theorem World.port_setCell_ne (w : World) (p q : Nat) (c : VarValue) (h : q ≠ p) :
    (w.setCell p c).port q = w.port q := by
  simp [World.port_setCell, h]

/-- C8 (amended): `setValue` with an *unchanged* value skips both
propagation branches, but still writes the cell through
`VariableValue.setValue`, turning `available` and `reliable` on; every
other port and the connection set are left untouched. -/
theorem setValue_unchanged_only_rewrites_own_cell
    (fuel : Nat) (w : World) (p : Nat) (v : Option Int) (propagate : Bool)
    (pw : PortW) (hp : w.port p = some pw) (hv : pw.cell.value = v) :
    setValuePort (fuel + 1) w p v propagate = some (w.setCell p (pw.cell.setValue v))
    ∧ (∀ q, q ≠ p → (w.setCell p (pw.cell.setValue v)).port q = w.port q)
    ∧ (w.setCell p (pw.cell.setValue v)).conns = w.conns := by
  refine ⟨?_, fun q hq => World.port_setCell_ne w p q _ hq, rfl⟩
  have hch : (pw.cell.value != v) = false := by
    rw [hv]; exact bne_self_eq_false v
  simp [setValuePort, hp, hch]

/-- Witness world for C8: one input port whose cell holds `5` and is
unreliable. -/
def noopWorld : World :=
  { ports := [(1, { cell := { value := some 5, available := true, reliable := false },
                    isInput := true, blockId := 0 })],
    conns := [] }

/-- C8 witness: the amended theorem applied to `noopWorld`. -/
theorem setValue_unchanged_only_rewrites_own_cell_witness :
    setValuePort 1 noopWorld 1 (some 5) true
      = some (noopWorld.setCell 1
          (VarValue.setValue { value := some 5, available := true, reliable := false } (some 5))) :=
  (setValue_unchanged_only_rewrites_own_cell 0 noopWorld 1 (some 5) true
      { cell := { value := some 5, available := true, reliable := false },
        isInput := true, blockId := 0 } (by decide) (by decide)).1

/-- C8 counterexample: the claim calls `setValue` with the current value a
"no-op"; on `noopWorld` the port's cell goes from unreliable to reliable,
so the cell (including its flags) is *not* left unchanged. -/
theorem setValue_unchanged_is_not_noop :
    (noopWorld.port 1).map (fun pw => pw.cell.reliable) = some false
    ∧ ((setValuePort 1 noopWorld 1 (some 5) true).bind
        (fun w => (w.port 1).map fun pw => pw.cell.reliable)) = some true := by
  decide

/-! ## Theorems: the reliability cascade scenario (claim C2)

Chain `A → B → C`: block ids 0, 1, 2; port 10 is `A.outputs[var1]`,
port 11 `B.inputs[var1]`, port 12 `B.outputs[var1]`, port 13
`C.inputs[var1]`, port 14 `C.outputs[var1]`; connections 10 → 11 and
12 → 13.  Every cell starts reliable and available with value `0`. -/

def relCell : VarValue := { value := some 0, available := true, reliable := true }

def chainWorld : World :=
  { ports :=
      [(10, { cell := relCell, isInput := false, blockId := 0 }),
       (11, { cell := relCell, isInput := true, blockId := 1 }),
       (12, { cell := relCell, isInput := false, blockId := 1 }),
       (13, { cell := relCell, isInput := true, blockId := 2 }),
       (14, { cell := relCell, isInput := false, blockId := 2 })],
    conns := [(10, 11), (12, 13)] }

/-- C2 counterexample: after `A.outputs[var1].setValue(7)` the outputs of
`B` (port 12) and of `C` (port 14) are still marked *reliable* — the push
to `B.inputs[var1]` runs with `propagate=False` and never calls
`makeOutputsUnreliable` — contradicting the claim that they end up
unreliable. -/
theorem scenario5_downstream_outputs_stay_reliable :
    ((setValuePort 3 chainWorld 10 (some 7) true).bind
        (fun w => (w.port 12).map fun pw => pw.cell.reliable)) = some true
    ∧ ((setValuePort 3 chainWorld 10 (some 7) true).bind
        (fun w => (w.port 14).map fun pw => pw.cell.reliable)) = some true := by
  decide

/-- C2 (amended): `A.outputs[var1].setValue(7)` writes `A`'s own cell and
pushes the value into `B`'s input cell (which becomes available and
reliable); the cells of `B`'s and `C`'s outputs and of `C`'s input are
left exactly as they were. -/
theorem scenario5_cascade_result :
    ((setValuePort 3 chainWorld 10 (some 7) true).bind
        (fun w => (w.port 11).map fun pw => pw.cell)) =
      some { value := some 7, available := true, reliable := true }
    ∧ ((setValuePort 3 chainWorld 10 (some 7) true).bind
        (fun w => (w.port 12).map fun pw => pw.cell)) = some relCell
    ∧ ((setValuePort 3 chainWorld 10 (some 7) true).bind
        (fun w => (w.port 13).map fun pw => pw.cell)) = some relCell
    ∧ ((setValuePort 3 chainWorld 10 (some 7) true).bind
        (fun w => (w.port 14).map fun pw => pw.cell)) = some relCell := by
  decide

/-! ## Theorems: automatic port naming (claim C7) -/

/-- C7: `addPort()` with no name on an editable hub *does not* always
terminate: with the single port name `var2` (reachable via
`addPort("var2")` on a fresh hub) the generated candidate `var2` collides,
and since `numPorts` never changes inside the loop the same candidate is
recomputed forever.  On a collision-free hub it does return the fresh
`var{1+numPorts}`. -/
theorem addPort_auto_name_loops_on_collision :
    addPort { editable := true, portNames := ["var2"] } none = .loopsForever
    ∧ addPort { editable := true, portNames := [] } none
        = .ok "var1" { editable := true, portNames := ["var1"] }
    ∧ addPort { editable := true, portNames := ["var1"] } none
        = .ok "var2" { editable := true, portNames := ["var1", "var2"] } := by
  decide

/-! ## Structural graphs and serialization
(`graph.py` `Graph.serialize` / `Graph.deserialize`, `block.py`
`BaseBlock.serialize` / `deserialize`, `connections.py` hub/port/connection
serialization, `Graph.removeBlock`)

Here the full object graph matters, so blocks carry their hubs, hubs their
ports, and ports their cells.  A stored Python value is either `None`, an
opaque datum (an integer), or — after a round trip — a `VariableValue`
*object* stored as a value (`Port.deserialize` wraps the wire value in
`VariableValue(...)` before `setValue`), hence `PVal` is recursive.
`VariableValue._id` is carried by no operation we model and is omitted.
`Code`/`LLM` blocks add nothing to the serialization shape the claims
exercise and are left out of the block-kind tag. -/

inductive PVal where
  | pyNone
  | pyInt (n : Int)
  | pyVV (value : PVal) (available : Bool) (reliable : Bool)
  deriving Repr, DecidableEq

/-- A `VariableValue` over opaque Python values. -/
structure PCell where
  value : PVal
  available : Bool
  reliable : Bool
  deriving Repr, DecidableEq

/-- `VariableValue.__init__(v)`. -/
def PCell.init (v : PVal) : PCell :=
  { value := v, available := v ≠ .pyNone, reliable := false }

/-- `VariableValue.setValue(v)`. -/
def PCell.setValue (_c : PCell) (v : PVal) : PCell :=
  { value := v, available := true, reliable := true }

/-- `VariableValue.makeUnreliable()`. -/
def PCell.makeUnreliable (c : PCell) : PCell := { c with reliable := false }

inductive HubKind where
  | input | output | internal
  deriving Repr, DecidableEq

inductive BlockKind where
  | base | variable
  deriving Repr, DecidableEq

structure SPort where
  id : String
  cell : PCell
  connIds : List String
  deriving Repr, DecidableEq

structure SHub where
  id : String
  kind : HubKind
  editable : Bool
  ports : List (String × SPort)
  deriving Repr, DecidableEq

/-- A block: `_name`/`_description` are optional, the `name`/`description`
properties substitute `"NO_NAME"`/`"NO_DESCRIPTION"`. -/
structure SBlock where
  id : String
  name : Option String
  descr : Option String
  kind : BlockKind
  inputs : SHub
  outputs : SHub
  deriving Repr, DecidableEq

/-- `block.name` property. -/
def SBlock.nameD (b : SBlock) : String := b.name.getD "NO_NAME"

/-- `block.description` property. -/
def SBlock.descrD (b : SBlock) : String := b.descr.getD "NO_DESCRIPTION"

structure SConn where
  id : String
  fromPort : Option String
  toPort : Option String
  deriving Repr, DecidableEq

/-- `Graph`: `_blocks` is a name-keyed insertion-ordered dict,
`_connections` a set (kept in insertion order). -/
structure SGraph where
  id : String
  name : String
  blocks : List (String × SBlock)
  conns : List SConn
  deriving Repr, DecidableEq

/-! ### The wire form (views) -/

structure PortView where
  id : String
  value : PVal
  connections : List String
  deriving Repr, DecidableEq

structure HubView where
  id : String
  kind : HubKind
  ports : List (String × PortView)
  deriving Repr, DecidableEq

/-- Block view; `inputs`/`outputs` are `none` when the hub serializes as
`{}` (the Python code writes `{}` for a hub that is falsy, i.e. has zero
ports). -/
structure BlockView where
  id : String
  name : String
  descr : String
  btype : BlockKind
  inputs : Option HubView
  outputs : Option HubView
  deriving Repr, DecidableEq

structure ConnView where
  id : String
  fromPort : Option String
  toPort : Option String
  deriving Repr, DecidableEq

structure GraphView where
  blocks : List (String × BlockView)
  conns : List (String × ConnView)
  metaName : String
  metaId : String
  deriving Repr, DecidableEq

/-! ### Serialization -/

/-- `Port.serialize()`. -/
def serializePort (p : SPort) : PortView :=
  { id := p.id, value := p.cell.value, connections := p.connIds }

/-- `ConnectionHub.serialize()`. -/
def serializeHub (h : SHub) : HubView :=
  { id := h.id, kind := h.kind,
    ports := h.ports.map fun kv => (kv.1, serializePort kv.2) }

/-- `BaseBlock.serialize()`: a hub with zero ports is falsy and serializes
as `{}` (here `none`). -/
def serializeBlock (b : SBlock) : BlockView :=
  { id := b.id, name := b.nameD, descr := b.descrD, btype := b.kind,
    inputs := if b.inputs.ports.isEmpty then none else some (serializeHub b.inputs),
    outputs := if b.outputs.ports.isEmpty then none else some (serializeHub b.outputs) }

/-- `Connection.serialize()`. -/
def serializeConn (c : SConn) : ConnView :=
  { id := c.id, fromPort := c.fromPort, toPort := c.toPort }

/-- `Graph.serialize()`: dict comprehensions keyed by object id over the
block set and the connection set. -/
def serializeGraph (g : SGraph) : GraphView :=
  { blocks := g.blocks.foldl (fun m kv => updL m kv.2.id (serializeBlock kv.2)) [],
    conns := g.conns.foldl (fun m c => updL m c.id (serializeConn c)) [],
    metaName := g.name, metaId := g.id }

/-! ### Deserialization -/

inductive DErr where
  | danglingConnection
  | duplicateBlockName
  deriving Repr, DecidableEq

/-- Stand-in for identifiers produced by `randomIdentifier()` during
deserialization that no modelled operation ever reads (fresh hub ids). -/
def freshOpaqueId : String := ""

/-- A constructor-fresh `ConnectionHub` (`editable` defaults to `True`,
the id is a fresh random identifier). -/
def freshHub (k : HubKind) : SHub :=
  { id := freshOpaqueId, kind := k, editable := true, ports := [] }

/-- `BaseBlock.__init__` resp. `Variable.__init__` as run by
`deserialize`: fresh hubs; a `Variable` additionally seeds `var1 = 0`
through `addOutputPort` + `port.setValue(0)`. -/
def blockInit (kind : BlockKind) (name descr : Option String) (id : String) : SBlock :=
  let base : SBlock :=
    { id := id, name := name, descr := descr, kind := kind,
      inputs := freshHub .input, outputs := freshHub .output }
  match kind with
  | .base => base
  | .variable =>
      { base with outputs :=
          { base.outputs with ports :=
              [("var1", { id := freshOpaqueId,
                          cell := (PCell.init .pyNone).setValue (.pyInt 0),
                          connIds := [] })] } }

/-- `BaseBlock.makeOutputsUnreliable()` as reachable during
`Port.deserialize` of an input port: at that moment the block under
construction has no port with any connection in its output hub (the
constructor hubs are unconnected and the output hub is deserialized only
afterwards), so the recursion over outgoing neighbors visits nothing and
only the block's own output cells are marked. -/
def markHubUnreliable (h : SHub) : SHub :=
  { h with ports := h.ports.map fun kv => (kv.1, { kv.2 with cell := kv.2.cell.makeUnreliable }) }

/-- Link one connection id to a port (`port.addConnection(connection)`
followed by setting `connection.to_port`/`from_port`): fails with
`ValueError` — the `DanglingConnection` of the spec — when the id is
unknown. -/
def linkConn (isInput : Bool) (pid : String) (cs : List SConn) (cid : String) :
    Except DErr (List SConn) :=
  if cs.any (fun c => c.id == cid) then
    .ok (cs.map fun c =>
      if c.id == cid then
        if isInput then { c with toPort := some pid } else { c with fromPort := some pid }
      else c)
  else .error .danglingConnection

/-- `Port.deserialize(data, parent, connections)`: build the port, write
the wire value wrapped in a fresh `VariableValue` object through
`setValue`, mark unreliable, then attach each referenced connection.
Returns the port and the updated connection objects. -/
def portDeserialize (isInput : Bool) (pv : PortView) (cs : List SConn) :
    Except DErr (SPort × List SConn) := do
  let cell0 := PCell.init .pyNone
  let cell1 := cell0.setValue (.pyVV pv.value (pv.value ≠ .pyNone) false)
  let cell2 := cell1.makeUnreliable
  let cs' ← pv.connections.foldlM (fun cs cid => linkConn isInput pv.id cs cid) cs
  pure ({ id := pv.id, cell := cell2, connIds := pv.connections }, cs')

/-- One iteration of `ConnectionHub.deserialize`'s port loop: deserialize
the port (threading the connection objects) and, for an input hub, let the
port's `setValue` mark the parent block's current output hub unreliable. -/
def hubPortStep (isInput : Bool) (acc : List (String × SPort) × SHub × List SConn)
    (kv : String × PortView) : Except DErr (List (String × SPort) × SHub × List SConn) := do
  let (p, cs') ← portDeserialize isInput kv.2 acc.2.2
  let outs' := if isInput then markHubUnreliable acc.2.1 else acc.2.1
  pure (acc.1 ++ [(kv.1, p)], outs', cs')

/-- `ConnectionHub.deserialize(data, parent, connections)` together with
the side effect each *input* port's `setValue` has on the parent block's
current output hub (see `markHubUnreliable`).  The hub id is freshly
generated, `editable` defaults to `True`. -/
def hubDeserialize (hv : HubView) (cs : List SConn) (curOutputs : SHub) :
    Except DErr (SHub × SHub × List SConn) := do
  let (ports, outs, cs') ← hv.ports.foldlM (hubPortStep (hv.kind == .input)) ([], curOutputs, cs)
  pure ({ id := freshOpaqueId, kind := hv.kind, editable := true, ports := ports }, outs, cs')

/-- `BaseBlock.deserialize` / `Variable.deserialize` (via
`Graph.deserialize_block`'s dispatch on the type tag): construct the
block, then replace each hub that serialized non-empty. -/
def blockDeserialize (bv : BlockView) (cs : List SConn) :
    Except DErr (SBlock × List SConn) := do
  let b0 := blockInit bv.btype (some bv.name) (some bv.descr) bv.id
  let (b1, cs1) ←
    match bv.inputs with
    | none => pure (b0, cs)
    | some hv => do
        let (hub, outs, cs') ← hubDeserialize hv cs b0.outputs
        pure ({ b0 with inputs := hub, outputs := outs }, cs')
  match bv.outputs with
  | none => pure (b1, cs1)
  | some hv => do
      let (hub, _, cs') ← hubDeserialize hv cs1 b1.outputs
      pure ({ b1 with outputs := hub }, cs')

/-- `Connection.deserialize(data)`: only the id survives; endpoints are
re-linked by the ports. -/
def connDeserialize (cv : ConnView) : SConn :=
  { id := cv.id, fromPort := none, toPort := none }

/-- `Graph.deserialize(serialized_graph)`: a fresh graph (fresh random id,
wire name), first pass constructing all connections, second pass
deserializing blocks and adding them by name (`addBlock` raises on a
duplicate name).  `freshId` stands for the `randomIdentifier()` drawn by
`Graph.__init__`. -/
def graphBlockStep (acc : List (String × SBlock) × List SConn) (kv : String × BlockView) :
    Except DErr (List (String × SBlock) × List SConn) := do
  let (b, cs') ← blockDeserialize kv.2 acc.2
  if acc.1.any (fun nb => nb.1 == b.nameD) then throw .duplicateBlockName
  else pure (acc.1 ++ [(b.nameD, b)], cs')

def deserializeGraph (gv : GraphView) (freshId : String) : Except DErr SGraph := do
  let conns0 := gv.conns.map fun kv => connDeserialize kv.2
  let (blocks, conns) ← gv.blocks.foldlM graphBlockStep ([], conns0)
  pure { id := freshId, name := gv.metaName, blocks := blocks, conns := conns }

/-! ### Graph equality and `removeBlock` -/

/-- Python `set(xs) == set(ys)` on strings. -/
def sameStrSet (l1 l2 : List String) : Bool :=
  l1.all l2.contains && l2.all l1.contains

/-- `Graph.__eq__`: same name, same block-id set, same connection-id
set. -/
def graphEq (g1 g2 : SGraph) : Bool :=
  g1.name == g2.name
    && sameStrSet (g1.blocks.map fun kv => kv.2.id) (g2.blocks.map fun kv => kv.2.id)
    && sameStrSet (g1.conns.map SConn.id) (g2.conns.map SConn.id)

/-- Does hub `h` own the port with id `pid`? -/
def SHub.hasPort (h : SHub) (pid : String) : Bool :=
  h.ports.any fun kv => kv.2.id == pid

/-- `port.parent_hub.parent_block` resolved structurally: the block one of
whose hubs holds the port (each port is owned by exactly one hub). -/
def SGraph.portOwnerId (g : SGraph) (pid : String) : Option String :=
  (g.blocks.find? fun kv => kv.2.inputs.hasPort pid || kv.2.outputs.hasPort pid).map
    fun kv => kv.2.id

/-- `connection.from_block == block or connection.to_block == block`
(`None` endpoints compare unequal to any block). -/
def SGraph.connTouches (g : SGraph) (c : SConn) (bid : String) : Bool :=
  (c.fromPort.bind g.portOwnerId == some bid) || (c.toPort.bind g.portOwnerId == some bid)

inductive PyErr where
  | valueError
  | runtimeError
  deriving Repr, DecidableEq

/-- `Graph.removeBlock(block)`: `ValueError` when the name is absent; when
any incident connection exists the loop
`for connection in self.connections: ... self.removeConnection(connection)`
removes an element from the very set being iterated, and CPython's set
iterator then raises `RuntimeError("Set changed size during iteration")`
on the following step — the block is never deleted.  Only a block with no
incident connection is actually removed. -/
def SGraph.removeBlock (g : SGraph) (bname : String) : Except PyErr SGraph :=
  match lookupL g.blocks bname with
  | none => .error .valueError
  | some b =>
      if (g.conns.filter fun c => g.connTouches c b.id).isEmpty then
        .ok { g with blocks := g.blocks.filter fun kv => kv.1 ≠ bname }
      else
        .error .runtimeError

/-! ### Round-trip lemmas -/

/-- All connection ids referenced from a hub's ports. -/
def hubConnRefs (h : SHub) : List String :=
  (h.ports.map fun kv => kv.2.connIds).flatten

/-- All connection ids referenced from a block's ports. -/
def blockConnRefs (b : SBlock) : List String :=
  hubConnRefs b.inputs ++ hubConnRefs b.outputs

theorem updL_append_of_not_mem {α β : Type} [DecidableEq α]
    (m : List (α × β)) (k : α) (v : β) (h : k ∉ m.map Prod.fst) :
    updL m k v = m ++ [(k, v)] := by
  induction m with
  | nil => rfl
  | cons a rest ih =>
      simp only [List.map_cons, List.mem_cons, not_or] at h
      have hne : ¬ a.1 = k := fun hh => h.1 hh.symm
      simp [updL, hne, ih h.2]

theorem foldl_updL_keyed {α β γ : Type} [DecidableEq α] (key : γ → α) (val : γ → β)
    (l : List γ) (init : List (α × β))
    (hdisj : ∀ x ∈ l, key x ∉ init.map Prod.fst)
    (hn : (l.map key).Nodup) :
    l.foldl (fun m x => updL m (key x) (val x)) init
      = init ++ l.map fun x => (key x, val x) := by
  induction l generalizing init with
  | nil => simp
  | cons x rest ih =>
      simp only [List.map_cons, List.nodup_cons] at hn
      have h1 : updL init (key x) (val x) = init ++ [(key x, val x)] :=
        updL_append_of_not_mem init (key x) (val x) (hdisj x (by simp))
      have h2 : ∀ y ∈ rest, key y ∉ (init ++ [(key x, val x)]).map Prod.fst := by
        intro y hy
        simp only [List.map_append, List.mem_append, List.map_cons, List.map_nil,
          List.mem_singleton, not_or]
        exact ⟨hdisj y (by simp [hy]), fun heq => hn.1 (heq ▸ List.mem_map_of_mem key hy)⟩
      rw [List.foldl_cons, h1, ih _ h2 hn.2, List.append_assoc]
      simp

theorem linkConn_ok (isInput : Bool) (pid : String) (cs : List SConn) (cid : String)
    (h : cid ∈ cs.map SConn.id) :
    ∃ cs', linkConn isInput pid cs cid = .ok cs'
      ∧ cs'.map SConn.id = cs.map SConn.id := by
  obtain ⟨c, hc, hcid⟩ := List.mem_map.mp h
  have hany : cs.any (fun c => c.id == cid) = true :=
    List.any_eq_true.mpr ⟨c, hc, by simp [hcid]⟩
  have hlc : linkConn isInput pid cs cid
      = .ok (cs.map fun c =>
          if c.id == cid then
            if isInput then { c with toPort := some pid } else { c with fromPort := some pid }
          else c) := by
    simp [linkConn, hany]
  refine ⟨_, hlc, ?_⟩
  rw [List.map_map]
  refine List.map_congr_left fun c _ => ?_
  simp only [Function.comp]
  by_cases h1 : (c.id == cid) = true <;> by_cases h2 : isInput = true <;>
    simp [h1, h2, SConn.id]

theorem foldlM_linkConn_ok (isInput : Bool) (pid : String)
    (cids : List String) (cs : List SConn)
    (h : ∀ cid ∈ cids, cid ∈ cs.map SConn.id) :
    ∃ cs', cids.foldlM (fun cs cid => linkConn isInput pid cs cid) cs = .ok cs'
      ∧ cs'.map SConn.id = cs.map SConn.id := by
  induction cids generalizing cs with
  | nil => exact ⟨cs, rfl, rfl⟩
  | cons cid rest ih =>
      obtain ⟨cs1, h1, hid1⟩ := linkConn_ok isInput pid cs cid (h cid (by simp))
      obtain ⟨cs', h2, hid2⟩ := ih cs1 (fun c hc => hid1 ▸ h c (by simp [hc]))
      exact ⟨cs', by simp [List.foldlM_cons, h1, h2, Bind.bind, Except.bind], hid2.trans hid1⟩

theorem portDeserialize_ok (isInput : Bool) (pv : PortView) (cs : List SConn)
    (h : ∀ cid ∈ pv.connections, cid ∈ cs.map SConn.id) :
    ∃ p' cs', portDeserialize isInput pv cs = .ok (p', cs')
      ∧ p'.id = pv.id ∧ cs'.map SConn.id = cs.map SConn.id := by
  obtain ⟨cs', hfold, hid⟩ := foldlM_linkConn_ok isInput pv.id pv.connections cs h
  refine ⟨{ id := pv.id,
            cell := ((PCell.init .pyNone).setValue
              (.pyVV pv.value (pv.value ≠ .pyNone) false)).makeUnreliable,
            connIds := pv.connections }, cs', ?_, rfl, hid⟩
  simp [portDeserialize, hfold, Bind.bind, Except.bind, pure, Except.pure]

theorem hub_ports_fold_ok (isInput : Bool) (pvs : List (String × PortView))
    (ps0 : List (String × SPort)) (outs0 : SHub) (cs0 : List SConn)
    (h : ∀ kv ∈ pvs, ∀ cid ∈ kv.2.connections, cid ∈ cs0.map SConn.id) :
    ∃ ps' outs' cs',
      pvs.foldlM (hubPortStep isInput) (ps0, outs0, cs0) = .ok (ps', outs', cs')
      ∧ cs'.map SConn.id = cs0.map SConn.id := by
  induction pvs generalizing ps0 outs0 cs0 with
  | nil => exact ⟨ps0, outs0, cs0, rfl, rfl⟩
  | cons kv rest ih =>
      obtain ⟨p1, cs1, h1, _, hid1⟩ :=
        portDeserialize_ok isInput kv.2 cs0 (h kv (by simp))
      obtain ⟨ps', outs', cs', h2, hid2⟩ :=
        ih (ps0 ++ [(kv.1, p1)]) (if isInput then markHubUnreliable outs0 else outs0) cs1
          (fun c hc cid hcid => hid1 ▸ h c (by simp [hc]) cid hcid)
      refine ⟨ps', outs', cs', ?_, hid2.trans hid1⟩
      rw [List.foldlM_cons]
      have hstep : hubPortStep isInput (ps0, outs0, cs0) kv
          = .ok (ps0 ++ [(kv.1, p1)],
              (if isInput then markHubUnreliable outs0 else outs0), cs1) := by
        simp [hubPortStep, h1, Bind.bind, Except.bind, pure, Except.pure]
      rw [hstep]
      simpa [Bind.bind, Except.bind] using h2

theorem hubDeserialize_ok (hv : HubView) (cs : List SConn) (outs : SHub)
    (h : ∀ kv ∈ hv.ports, ∀ cid ∈ kv.2.connections, cid ∈ cs.map SConn.id) :
    ∃ hub outs' cs', hubDeserialize hv cs outs = .ok (hub, outs', cs')
      ∧ cs'.map SConn.id = cs.map SConn.id := by
  obtain ⟨ps', outs', cs', hfold, hid⟩ :=
    hub_ports_fold_ok (hv.kind == .input) hv.ports [] outs cs h
  refine ⟨{ id := freshOpaqueId, kind := hv.kind, editable := true, ports := ps' },
    outs', cs', ?_, hid⟩
  simp [hubDeserialize, hfold, Bind.bind, Except.bind, pure, Except.pure]

theorem blockDeserialize_ok (bv : BlockView) (cs : List SConn)
    (h : ∀ hv, (bv.inputs = some hv ∨ bv.outputs = some hv) →
          ∀ kv ∈ hv.ports, ∀ cid ∈ kv.2.connections, cid ∈ cs.map SConn.id) :
    ∃ b' cs', blockDeserialize bv cs = .ok (b', cs')
      ∧ b'.id = bv.id ∧ b'.name = some bv.name
      ∧ cs'.map SConn.id = cs.map SConn.id := by
  have hinit : (blockInit bv.btype (some bv.name) (some bv.descr) bv.id).id = bv.id
      ∧ (blockInit bv.btype (some bv.name) (some bv.descr) bv.id).name = some bv.name := by
    cases bv.btype <;> exact ⟨rfl, rfl⟩
  cases hin : bv.inputs with
  | none =>
      cases hout : bv.outputs with
      | none =>
          refine ⟨blockInit bv.btype (some bv.name) (some bv.descr) bv.id, cs, ?_,
            hinit.1, hinit.2, rfl⟩
          simp [blockDeserialize, hin, hout, Bind.bind, Except.bind, pure, Except.pure]
      | some hv =>
          obtain ⟨hub, outs', cs', h1, hid1⟩ :=
            hubDeserialize_ok hv cs
              (blockInit bv.btype (some bv.name) (some bv.descr) bv.id).outputs
              (h hv (Or.inr hout))
          refine ⟨{ blockInit bv.btype (some bv.name) (some bv.descr) bv.id with
              outputs := hub }, cs', ?_, hinit.1, hinit.2, hid1⟩
          simp [blockDeserialize, hin, hout, h1, Bind.bind, Except.bind, pure, Except.pure]
  | some hv =>
      obtain ⟨hub1, outs1, cs1, h1, hid1⟩ :=
        hubDeserialize_ok hv cs
          (blockInit bv.btype (some bv.name) (some bv.descr) bv.id).outputs
          (h hv (Or.inl hin))
      cases hout : bv.outputs with
      | none =>
          refine ⟨{ blockInit bv.btype (some bv.name) (some bv.descr) bv.id with
              inputs := hub1, outputs := outs1 }, cs1, ?_, hinit.1, hinit.2, hid1⟩
          simp [blockDeserialize, hin, hout, h1, Bind.bind, Except.bind, pure, Except.pure]
      | some hv2 =>
          obtain ⟨hub2, outs2, cs2, h2, hid2⟩ :=
            hubDeserialize_ok hv2 cs1 outs1
              (fun kv hkv cid hcid => hid1 ▸ h hv2 (Or.inr hout) kv hkv cid hcid)
          refine ⟨{ blockInit bv.btype (some bv.name) (some bv.descr) bv.id with
              inputs := hub1, outputs := hub2 }, cs2, ?_, hinit.1, hinit.2, hid2.trans hid1⟩
          simp [blockDeserialize, hin, hout, h1, h2, Bind.bind, Except.bind, pure, Except.pure]

theorem serializeBlock_refs (b : SBlock) (ids : List String)
    (href : ∀ cid ∈ blockConnRefs b, cid ∈ ids) :
    ∀ hv, ((serializeBlock b).inputs = some hv ∨ (serializeBlock b).outputs = some hv) →
      ∀ kv ∈ hv.ports, ∀ cid ∈ kv.2.connections, cid ∈ ids := by
  have hhub : ∀ h : SHub, (∀ cid ∈ hubConnRefs h, cid ∈ ids) →
      ∀ kv ∈ (serializeHub h).ports, ∀ cid ∈ kv.2.connections, cid ∈ ids := by
    intro h hh kv hkv cid hcid
    simp only [serializeHub, List.mem_map] at hkv
    obtain ⟨p, hp, rfl⟩ := hkv
    refine hh cid ?_
    simp only [hubConnRefs, List.mem_flatten, List.mem_map]
    exact ⟨p.2.connIds, ⟨p, hp, rfl⟩, hcid⟩
  intro hv hor
  rcases hor with hin | hout
  · by_cases he : b.inputs.ports.isEmpty <;> simp [serializeBlock, he] at hin
    subst hin
    exact hhub b.inputs fun cid hc => href cid (by simp [blockConnRefs, hc])
  · by_cases he : b.outputs.ports.isEmpty <;> simp [serializeBlock, he] at hout
    subst hout
    exact hhub b.outputs fun cid hc => href cid (by simp [blockConnRefs, hc])

theorem graph_blocks_fold_ok (bs bs0 : List (String × SBlock)) (cs0 : List SConn)
    (hrefs : ∀ kv ∈ bs, ∀ cid ∈ blockConnRefs kv.2, cid ∈ cs0.map SConn.id)
    (hnames : (bs0.map Prod.fst ++ bs.map fun kv => kv.2.nameD).Nodup) :
    ∃ bs' cs',
      (bs.map fun kv => (kv.2.id, serializeBlock kv.2)).foldlM graphBlockStep (bs0, cs0)
        = .ok (bs0 ++ bs', cs')
      ∧ bs'.map Prod.fst = bs.map (fun kv => kv.2.nameD)
      ∧ bs'.map (fun kv => kv.2.id) = bs.map (fun kv => kv.2.id)
      ∧ cs'.map SConn.id = cs0.map SConn.id := by
  induction bs generalizing bs0 cs0 with
  | nil => exact ⟨[], cs0, by simp [pure, Except.pure], rfl, rfl, rfl⟩
  | cons kb rest ih =>
      obtain ⟨b', cs1, hdes, hid, hname, hcs1⟩ :=
        blockDeserialize_ok (serializeBlock kb.2) cs0
          (serializeBlock_refs kb.2 _ (hrefs kb (by simp)))
      have hbname : b'.nameD = kb.2.nameD := by
        simp [SBlock.nameD, hname, serializeBlock]
      have hnotmem : kb.2.nameD ∉ bs0.map Prod.fst := by
        intro hmem
        rcases List.nodup_append.mp hnames with ⟨_, _, hdisj⟩
        exact hdisj hmem (by simp)
      have hany : (bs0.any fun nb => nb.1 == b'.nameD) = false := by
        rw [List.any_eq_false]
        intro nb hnb
        simp only [beq_iff_eq, hbname]
        intro heq
        exact hnotmem (heq ▸ List.mem_map_of_mem Prod.fst hnb)
      have hstep : graphBlockStep (bs0, cs0) (kb.2.id, serializeBlock kb.2)
          = .ok (bs0 ++ [(b'.nameD, b')], cs1) := by
        simp [graphBlockStep, hdes, hany, Bind.bind, Except.bind, pure, Except.pure]
      have hnames' : ((bs0 ++ [(b'.nameD, b')]).map Prod.fst
          ++ rest.map fun kv => kv.2.nameD).Nodup := by
        simpa [hbname, List.append_assoc] using hnames
      obtain ⟨bs'', cs', hfold, hn, hi, hc⟩ := ih (bs0 ++ [(b'.nameD, b')]) cs1
        (fun kv hkv cid hcid => hcs1 ▸ hrefs kv (by simp [hkv]) cid hcid) hnames'
      refine ⟨(b'.nameD, b') :: bs'', cs', ?_, ?_, ?_, hc.trans hcs1⟩
      · rw [List.map_cons, List.foldlM_cons, hstep]
        simpa [Bind.bind, Except.bind, List.append_assoc] using hfold
      · simp [hn, hbname]
      · simp [hi, hid, serializeBlock]

/-- Core round-trip lemma: serializing any graph whose block ids,
connection ids and block names are duplicate-free and whose ports
reference only registered connections, then deserializing, succeeds and
reproduces the name, the block-id list and the connection-id list, under
a fresh graph id. -/
theorem roundtrip_aux (g : SGraph) (fresh : String)
    (hids : (g.blocks.map fun kv => kv.2.id).Nodup)
    (hcids : (g.conns.map SConn.id).Nodup)
    (hnames : (g.blocks.map fun kv => kv.2.nameD).Nodup)
    (hrefs : ∀ kv ∈ g.blocks, ∀ cid ∈ blockConnRefs kv.2, cid ∈ g.conns.map SConn.id) :
    ∃ g', deserializeGraph (serializeGraph g) fresh = .ok g'
      ∧ g'.id = fresh ∧ g'.name = g.name
      ∧ g'.blocks.map (fun kv => kv.2.id) = g.blocks.map (fun kv => kv.2.id)
      ∧ g'.conns.map SConn.id = g.conns.map SConn.id := by
  have hblocks : (serializeGraph g).blocks
      = g.blocks.map fun kv => (kv.2.id, serializeBlock kv.2) := by
    have h := foldl_updL_keyed (fun kv : String × SBlock => kv.2.id)
      (fun kv => serializeBlock kv.2) g.blocks [] (by simp) hids
    simpa [serializeGraph] using h
  have hconns : (serializeGraph g).conns = g.conns.map fun c => (c.id, serializeConn c) := by
    have h := foldl_updL_keyed SConn.id serializeConn g.conns [] (by simp) hcids
    simpa [serializeGraph] using h
  have hconns0 : ((serializeGraph g).conns.map fun kv => connDeserialize kv.2)
      = g.conns.map fun c => { id := c.id, fromPort := none, toPort := none } := by
    rw [hconns, List.map_map]
    rfl
  have hconns0ids : ((serializeGraph g).conns.map fun kv => connDeserialize kv.2).map SConn.id
      = g.conns.map SConn.id := by
    rw [hconns0, List.map_map]
    rfl
  obtain ⟨bs', cs', hfold, hn, hi, hc⟩ :=
    graph_blocks_fold_ok g.blocks []
      ((serializeGraph g).conns.map fun kv => connDeserialize kv.2)
      (fun kv hkv cid hcid => by rw [hconns0ids]; exact hrefs kv hkv cid hcid)
      (by simpa using hnames)
  refine ⟨{ id := fresh, name := (serializeGraph g).metaName,
            blocks := [] ++ bs',
            conns := cs' }, ?_, rfl, rfl, ?_, ?_⟩
  · simp only [deserializeGraph]
    rw [hblocks, hfold]
    simp [Bind.bind, Except.bind, pure, Except.pure]
  · simpa using hi
  · exact hc.trans hconns0ids

theorem sameStrSet_self (l : List String) : sameStrSet l l = true := by
  simp [sameStrSet, List.all_eq_true]

/-! ## Theorems: serialization round trip (claim C5), fresh graph id
(claim C10), removeBlock (claim C6) -/

/-- C5: `deserialize(serialize(g)) == g` under `Graph.__eq__` (same name,
same block-id set, same connection-id set), for every graph whose block
ids, block names and connection ids are duplicate-free and whose ports
reference only connections registered in the graph — the documented graph
invariants (§3 invariants 4 and 6, unique identifiers). -/
theorem serialize_roundtrip_identity (g : SGraph) (fresh : String)
    (hids : (g.blocks.map fun kv => kv.2.id).Nodup)
    (hcids : (g.conns.map SConn.id).Nodup)
    (hnames : (g.blocks.map fun kv => kv.2.nameD).Nodup)
    (hrefs : ∀ kv ∈ g.blocks, ∀ cid ∈ blockConnRefs kv.2, cid ∈ g.conns.map SConn.id) :
    ∃ g', deserializeGraph (serializeGraph g) fresh = .ok g' ∧ graphEq g' g = true := by
  obtain ⟨g', hdes, _, hname, hbids, hcids'⟩ := roundtrip_aux g fresh hids hcids hnames hrefs
  refine ⟨g', hdes, ?_⟩
  simp [graphEq, hname, hbids, hcids', sameStrSet_self]

/-- Scenario 6 instance: `BaseBlock` "A" with output port `var1` connected
(`c1`) to `Variable` "B"'s input port `var1`; "B" keeps its seeded output
variable. -/
def s6cellNone : PCell := { value := .pyNone, available := true, reliable := true }

def s6blockA : SBlock :=
  { id := "idA", name := some "A", descr := none, kind := .base,
    inputs := { id := "hAi", kind := .input, editable := true, ports := [] },
    outputs := { id := "hAo", kind := .output, editable := true,
                 ports := [("var1", { id := "pA", cell := s6cellNone, connIds := ["c1"] })] } }

def s6blockB : SBlock :=
  { id := "idB", name := some "B", descr := none, kind := .variable,
    inputs := { id := "hBi", kind := .input, editable := true,
                ports := [("var1", { id := "pB", cell := s6cellNone, connIds := ["c1"] })] },
    outputs := { id := "hBo", kind := .output, editable := true,
                 ports := [("var1", { id := "pBv",
                                      cell := { value := .pyInt 0, available := true,
                                                reliable := true },
                                      connIds := [] })] } }

def scenario6Graph : SGraph :=
  { id := "GID00001", name := "scenario6",
    blocks := [("A", s6blockA), ("B", s6blockB)],
    conns := [{ id := "c1", fromPort := some "pA", toPort := some "pB" }] }

/-- C5 witness: the round-trip theorem applied to the scenario-6 graph. -/
theorem serialize_roundtrip_identity_witness :
    ∃ g', deserializeGraph (serializeGraph scenario6Graph) "GID00002" = .ok g'
      ∧ graphEq g' scenario6Graph = true :=
  serialize_roundtrip_identity scenario6Graph "GID00002"
    (by decide) (by decide) (by decide) (by decide)

/-- C10: `Graph.deserialize` never restores the serialized graph's own id:
the rebuilt graph carries the freshly drawn identifier (modelled by the
explicit `fresh` argument), so whenever the fresh draw differs from
`g.id` the two ids differ, while the name, the block ids and the
connection ids are carried over. -/
theorem deserialize_fresh_graph_id (g : SGraph) (fresh : String)
    (hids : (g.blocks.map fun kv => kv.2.id).Nodup)
    (hcids : (g.conns.map SConn.id).Nodup)
    (hnames : (g.blocks.map fun kv => kv.2.nameD).Nodup)
    (hrefs : ∀ kv ∈ g.blocks, ∀ cid ∈ blockConnRefs kv.2, cid ∈ g.conns.map SConn.id)
    (hfr : fresh ≠ g.id) :
    ∃ g', deserializeGraph (serializeGraph g) fresh = .ok g'
      ∧ g'.id = fresh ∧ g'.id ≠ g.id ∧ g'.name = g.name
      ∧ g'.blocks.map (fun kv => kv.2.id) = g.blocks.map (fun kv => kv.2.id)
      ∧ g'.conns.map SConn.id = g.conns.map SConn.id := by
  obtain ⟨g', hdes, hgid, hname, hbids, hcids'⟩ := roundtrip_aux g fresh hids hcids hnames hrefs
  exact ⟨g', hdes, hgid, hgid ▸ hfr, hname, hbids, hcids'⟩

/-- C10 witness: deserializing the serialized scenario-6 graph under a
fresh id distinct from the original. -/
theorem deserialize_fresh_graph_id_witness :
    ∃ g', deserializeGraph (serializeGraph scenario6Graph) "GID00002" = .ok g'
      ∧ g'.id = "GID00002" ∧ g'.id ≠ scenario6Graph.id ∧ g'.name = scenario6Graph.name
      ∧ g'.blocks.map (fun kv => kv.2.id) = scenario6Graph.blocks.map (fun kv => kv.2.id)
      ∧ g'.conns.map SConn.id = scenario6Graph.conns.map SConn.id :=
  deserialize_fresh_graph_id scenario6Graph "GID00002"
    (by decide) (by decide) (by decide) (by decide) (by decide)

/-- C6: `removeBlock` on a block with an incident connection does *not*
succeed: the loop removes a connection from the very set it iterates, so
CPython raises `RuntimeError` and the block stays in the graph; only a
block with no incident connection is removed.  (Evaluation of the model
at the failing input, plus the connection-free case for contrast.) -/
theorem removeBlock_crashes_on_connected_block :
    scenario6Graph.removeBlock "A" = .error .runtimeError
    ∧ ({ scenario6Graph with conns := [] } : SGraph).removeBlock "A"
        = .ok { scenario6Graph with
                  blocks := scenario6Graph.blocks.filter fun kv => kv.1 ≠ "A",
                  conns := [] } := by
  constructor
  · rfl
  · rfl

/-! ## Evaluation order  (`graph.py`, `Graph.getBlockEvaluationOrder`,
`Graph.getAllBlocksFollowingBlock`)

These operations see the graph only through block identity (the unique
names), `getOutgoingNeighbors` and `getIncomingNeighbors`, so a graph is a
list of block names plus the block-level edge relation induced by the
connections.  Python iterates sets of blocks in unspecified order; the
model fixes the one canonical order given by the block list (`outN`
filters the block list), and the queue is FIFO exactly as
`queue.Queue`. -/

structure DGraph where
  blocks : List String
  edges : List (String × String)
  deriving Repr, DecidableEq

/-- Is there a connection from a port of `u`'s output hub to a port of
`v`'s input hub? -/
def DGraph.adj (g : DGraph) (u v : String) : Bool := g.edges.contains (u, v)

/-- `block.getOutgoingNeighbors()` (a set of blocks; iterated here in
block-list order). -/
def DGraph.outN (g : DGraph) (b : String) : List String := g.blocks.filter (g.adj b)

/-- `block.getIncomingNeighbors()`. -/
def DGraph.inN (g : DGraph) (b : String) : List String :=
  g.blocks.filter fun u => g.adj u b

/-- The blocks with no incoming neighbors
(`if not block.getIncomingNeighbors()`), in block-list order. -/
def DGraph.sources (g : DGraph) : List String :=
  g.blocks.filter fun b => (g.inN b).isEmpty

theorem length_filter_le_of_imp {α : Type} (l : List α) (p q : α → Bool)
    (h : ∀ x ∈ l, p x = true → q x = true) :
    (l.filter p).length ≤ (l.filter q).length := by
  induction l with
  | nil => simp
  | cons a rest ih =>
      have ih' := ih fun x hx => h x (by simp [hx])
      by_cases hpa : p a = true
      · simp [List.filter_cons, hpa, h a (by simp) hpa]
        omega
      · rw [List.filter_cons, if_neg (by simp [hpa])]
        by_cases hqa : q a = true
        · simp [List.filter_cons, hqa]
          omega
        · rw [List.filter_cons, if_neg (by simp [hqa])]
          exact ih'

theorem length_filter_lt_of_imp {α : Type} (l : List α) (p q : α → Bool)
    (h : ∀ x ∈ l, p x = true → q x = true) (b : α) (hb : b ∈ l)
    (hpb : p b = false) (hqb : q b = true) :
    (l.filter p).length < (l.filter q).length := by
  induction l with
  | nil => simp at hb
  | cons a rest ih =>
      have hrest := length_filter_le_of_imp rest p q fun x hx => h x (by simp [hx])
      rcases List.mem_cons.mp hb with rfl | hbrest
      · rw [List.filter_cons, if_neg (by simp [hpb]), List.filter_cons, if_pos (by simp [hqb])]
        simpa using Nat.lt_succ_of_le hrest
      · have ih' := ih (fun x hx => h x (by simp [hx])) hbrest
        by_cases hpa : p a = true
        · simp [List.filter_cons, hpa, h a (by simp) hpa]
          omega
        · rw [List.filter_cons, if_neg (by simp [hpa])]
          by_cases hqa : q a = true
          · rw [List.filter_cons, if_pos (by simp [hqa])]
            simp only [List.length_cons]
            omega
          · rw [List.filter_cons, if_neg (by simp [hqa])]
            exact ih'

/-- The termination measure of the Python while-loop: lexicographically,
first the number of not-yet-visited blocks plus the number of queue
entries that are not blocks of the graph, then the number of queue
entries whose block is already visited.  Any dequeue strictly decreases
it. -/
def wlMeasure (g : DGraph) (queue visited : List String) : Nat × Nat :=
  ((g.blocks.filter fun x => !visited.contains x).length
      + (queue.filter fun x => !g.blocks.contains x).length,
   (queue.filter fun x => visited.contains x).length)

theorem wl_step_decreases (g : DGraph) (b : String) (rest visited : List String) :
    Prod.Lex (· < ·) (· < ·)
      (wlMeasure g (rest ++ (g.outN b).filter fun v => !visited.contains v)
        (visited.insert b))
      (wlMeasure g (b :: rest) visited) := by
  have hns : ∀ x ∈ (g.outN b).filter (fun v => !visited.contains v),
      x ∈ g.blocks ∧ x ∉ visited := by
    intro x hx
    rw [List.mem_filter] at hx
    refine ⟨(List.mem_filter.mp hx.1).1, fun hmem => ?_⟩
    have h2 := hx.2
    simp [List.elem_iff.mpr hmem] at h2
    exact h2 hmem
  have hnsj : ((g.outN b).filter (fun v => !visited.contains v)).filter
      (fun x => !g.blocks.contains x) = [] := by
    rw [List.filter_eq_nil_iff]
    intro x hx
    simp [List.elem_iff, (hns x hx).1]
  simp only [wlMeasure]
  by_cases hv : b ∈ visited
  · have hvis : visited.insert b = visited := List.insert_of_mem hv
    rw [hvis]
    by_cases hU : b ∈ g.blocks
    · -- already visited, a real block: the first component is unchanged,
      -- the count of visited queue entries drops by one
      have h1 : ((rest ++ (g.outN b).filter fun v => !visited.contains v).filter
            fun x => !g.blocks.contains x)
          = ((b :: rest).filter fun x => !g.blocks.contains x) := by
        rw [List.filter_append, hnsj, List.append_nil, List.filter_cons,
          if_neg (by simp [List.elem_iff, hU])]
      have h2 : ((rest ++ (g.outN b).filter fun v => !visited.contains v).filter
            fun x => visited.contains x).length
          < ((b :: rest).filter fun x => visited.contains x).length := by
        have hempty : ((g.outN b).filter (fun v => !visited.contains v)).filter
            (fun x => visited.contains x) = [] := by
          rw [List.filter_eq_nil_iff]
          intro x hx
          simp [List.elem_iff, (hns x hx).2]
        rw [List.filter_append, hempty, List.append_nil, List.filter_cons,
          if_pos (by simp [List.elem_iff, hv])]
        simp
      rw [h1]
      exact Prod.Lex.right _ h2
    · -- already visited but not a block of the graph: one junk entry gone
      have h1 : ((rest ++ (g.outN b).filter fun v => !visited.contains v).filter
            fun x => !g.blocks.contains x).length
          < ((b :: rest).filter fun x => !g.blocks.contains x).length := by
        rw [List.filter_append, hnsj, List.append_nil, List.filter_cons,
          if_pos (by simp [List.elem_iff, hU])]
        simp
      exact Prod.Lex.left _ _ (by omega)
  · have hvis : visited.insert b = b :: visited := List.insert_of_not_mem hv
    rw [hvis]
    have hmono : ∀ x ∈ g.blocks, (!(b :: visited).contains x) = true →
        (!visited.contains x) = true := by
      intro x _ hx
      rw [Bool.not_eq_eq_eq_not, Bool.not_true] at hx ⊢
      simp only [List.contains_cons, Bool.or_eq_false_iff] at hx
      exact hx.2
    have hjunk : ((rest ++ (g.outN b).filter fun v => !visited.contains v).filter
          fun x => !g.blocks.contains x).length
        ≤ ((b :: rest).filter fun x => !g.blocks.contains x).length := by
      rw [List.filter_append, hnsj, List.append_nil, List.filter_cons]
      by_cases hU : (!g.blocks.contains b) = true
      · rw [if_pos hU]
        simp only [List.length_cons]
        omega
      · rw [if_neg hU]
    by_cases hU : b ∈ g.blocks
    · -- first visit of a real block: strictly fewer unvisited blocks
      have h1 : ((g.blocks.filter fun x => !(b :: visited).contains x).length
          < (g.blocks.filter fun x => !visited.contains x).length) := by
        refine length_filter_lt_of_imp g.blocks _ _ hmono b hU ?_ ?_
        · simp [List.elem_iff]
        · simp [List.elem_iff, hv]
      exact Prod.Lex.left _ _ (by omega)
    · -- junk entry, never seen: junk count drops
      have h1 : (g.blocks.filter fun x => !(b :: visited).contains x).length
          ≤ (g.blocks.filter fun x => !visited.contains x).length :=
        length_filter_le_of_imp g.blocks _ _ hmono
      have h2 : ((rest ++ (g.outN b).filter fun v => !visited.contains v).filter
            fun x => !g.blocks.contains x).length
          < ((b :: rest).filter fun x => !g.blocks.contains x).length := by
        rw [List.filter_append, hnsj, List.append_nil, List.filter_cons,
          if_pos (by simp [List.elem_iff, hU])]
        simp
      exact Prod.Lex.left _ _ (by omega)

/-- The while-loop of `getBlockEvaluationOrder` and of the BFS helpers:
dequeue `b`, enqueue its not-yet-visited outgoing neighbors, update the
accumulator (`blocks_to_level` or nothing), mark `b` visited.  It
terminates on *every* graph — measured by `wlMeasure` — so the Python
loop does too. -/
def worklist (g : DGraph) (upd : String → List (String × Int) → List (String × Int)) :
    List String → List String → List (String × Int) →
      List String × List (String × Int)
  | [], visited, acc => (visited, acc)
  | b :: rest, visited, acc =>
      worklist g upd (rest ++ (g.outN b).filter fun v => !visited.contains v)
        (visited.insert b) (upd b acc)
  termination_by queue visited _ => wlMeasure g queue visited
  decreasing_by exact wl_step_decreases g b rest visited

/-- Fuel-indexed version of `worklist` used to *evaluate* it on concrete
graphs (the well-founded `worklist` does not reduce definitionally). -/
def worklistFuel (g : DGraph) (upd : String → List (String × Int) → List (String × Int)) :
    Nat → List String → List String → List (String × Int) →
      Option (List String × List (String × Int))
  | 0, _, _, _ => none
  | _ + 1, [], visited, acc => some (visited, acc)
  | fuel + 1, b :: rest, visited, acc =>
      worklistFuel g upd fuel (rest ++ (g.outN b).filter fun v => !visited.contains v)
        (visited.insert b) (upd b acc)

theorem worklistFuel_sound (g : DGraph)
    (upd : String → List (String × Int) → List (String × Int)) :
    ∀ (n : Nat) (queue visited : List String) (acc : List (String × Int)) r,
      worklistFuel g upd n queue visited acc = some r →
      worklist g upd queue visited acc = r := by
  intro n
  induction n with
  | zero => intro q v a r h; cases h
  | succ n ih =>
      intro q v a r h
      cases q with
      | nil =>
          simp only [worklistFuel] at h
          simp only [worklist]
          exact Option.some.inj h
      | cons b rest =>
          simp only [worklistFuel] at h
          simp only [worklist]
          exact ih _ _ _ _ h

/-- One dequeue's update of `blocks_to_level`: `new_block_level` is read
once from the dequeued block (always present: every enqueued block was
assigned a level first; `getD 0` totalizes the unreachable miss), then
every outgoing neighbor gets
`max(new_block_level, blocks_to_level.get(neighbor, -1))`. -/
def levelUpd (g : DGraph) (b : String) (ls : List (String × Int)) : List (String × Int) :=
  let nl := (lookupL ls b).getD 0 + 1
  (g.outN b).foldl (fun cur v => updL cur v (max nl ((lookupL cur v).getD (-1)))) ls

/-- The initial `blocks_to_level`: every block with no incoming neighbor
at level 0 (and those same blocks are the initial queue). -/
def initLevels (g : DGraph) : List (String × Int) := g.sources.map fun b => (b, 0)

/-- The level-marking loop of `getBlockEvaluationOrder`, run to
completion: final `(visited_blocks, blocks_to_level)`. -/
def evalState (g : DGraph) : List String × List (String × Int) :=
  worklist g (levelUpd g) g.sources [] (initLevels g)

/-- The final `blocks_to_level`. -/
def evalLevels (g : DGraph) : List (String × Int) := (evalState g).2

/-- `Graph.getAllBlocksFollowingBlock(start)`: BFS over outgoing
neighbors, inclusive; the accumulated set is the visited set of the same
worklist (seeded with the start block). -/
def following (g : DGraph) (s : String) : List String :=
  (worklist g (fun _ acc => acc) [s] [s] []).1

/-- Key of the second (deciding) Python `sorted` call: the block's level. -/
def byLevel (p q : String × Int) : Prop := p.2 ≤ q.2

/-- Python's `str` comparison: lexicographic by code point, a strict
prefix sorting first. -/
def lexLeb : List Char → List Char → Bool
  | [], _ => true
  | _ :: _, [] => false
  | a :: as, b :: bs =>
      if a.val < b.val then true else if b.val < a.val then false else lexLeb as bs

/-- Key of the first Python `sorted` call: the block's name (Python `str`
order). -/
def byName (p q : String × Int) : Prop := lexLeb p.1.data q.1.data = true

instance : DecidableRel byLevel := fun p q => inferInstanceAs (Decidable (p.2 ≤ q.2))

instance : DecidableRel byName := fun p q =>
  inferInstanceAs (Decidable (lexLeb p.1.data q.1.data = true))

/-- The `(block, level)` pairs of `getBlockEvaluationOrder` after the
optional start-block restriction and the two stable sorts (Python's
`sorted` is a stable sort, as is `List.insertionSort`): first by name,
then by level. -/
def evalPairs (g : DGraph) (start : Option String) : List (String × Int) :=
  let ls := evalLevels g
  let ls' := match start with
    | none => ls
    | some s => ls.filter fun p => (following g s).contains p.1
  List.insertionSort byLevel (List.insertionSort byName ls')

/-- `Graph.getBlockEvaluationOrder(start_block)`. -/
def getBlockEvaluationOrder (g : DGraph) (start : Option String) : List String :=
  (evalPairs g start).map Prod.fst

theorem evalLevels_of_fuel (g : DGraph) (n : Nat) (r : List String × List (String × Int))
    (h : worklistFuel g (levelUpd g) n g.sources [] (initLevels g) = some r) :
    evalLevels g = r.2 := by
  rw [evalLevels, evalState, worklistFuel_sound g (levelUpd g) n _ _ _ r h]

theorem following_of_fuel (g : DGraph) (s : String) (n : Nat)
    (r : List String × List (String × Int))
    (h : worklistFuel g (fun _ acc => acc) n [s] [s] [] = some r) :
    following g s = r.1 := by
  rw [following, worklistFuel_sound g _ n _ _ _ r h]

/-- Scenario 1/2 canonical DAG: `A→B, A→C, B→D, B→E, C→E, C→F, D→G, E→G,
F→G`. -/
def gScen1 : DGraph :=
  { blocks := ["A", "B", "C", "D", "E", "F", "G"],
    edges := [("A", "B"), ("A", "C"), ("B", "D"), ("B", "E"), ("C", "E"),
              ("C", "F"), ("D", "G"), ("E", "G"), ("F", "G")] }

/-- A graph with a cycle reachable from a source: `A→B, B→C, C→B`. -/
def gCyc : DGraph :=
  { blocks := ["A", "B", "C"], edges := [("A", "B"), ("B", "C"), ("C", "B")] }

/-- Acyclic graph on which the one-pass leveling emits a block before its
ancestor: `A→X, A→P, P→Q, Q→X, X→Y`.  `X` is dequeued (level 1) before
the path `A→P→Q` raises its level to 3, so `Y` keeps level 2 < 3. -/
def gStale : DGraph :=
  { blocks := ["A", "P", "Q", "X", "Y"],
    edges := [("A", "X"), ("A", "P"), ("P", "Q"), ("Q", "X"), ("X", "Y")] }

/-- Acyclicity of the block-level graph: a ranking of the blocks that
strictly increases along every edge.  (Equivalent to the absence of
directed cycles on a finite graph.) -/
def Acyclic (g : DGraph) : Prop :=
  ∃ rank : String → Nat,
    ∀ u ∈ g.blocks, ∀ v ∈ g.blocks, g.adj u v = true → rank u < rank v

/-- C4: on the canonical seven-block DAG the full evaluation order is
`[A, B, C, D, E, F, G]` and the order from start block `C` is
`[C, E, F, G]`. -/
theorem scenario1_eval_order :
    getBlockEvaluationOrder gScen1 none = ["A", "B", "C", "D", "E", "F", "G"]
    ∧ getBlockEvaluationOrder gScen1 (some "C") = ["C", "E", "F", "G"] := by
  have h1 : evalLevels gScen1
      = [("A", 0), ("B", 1), ("C", 1), ("D", 2), ("E", 2), ("F", 2), ("G", 3)] :=
    evalLevels_of_fuel gScen1 40
      (⟨["G", "F", "E", "D", "C", "B", "A"],
        [("A", 0), ("B", 1), ("C", 1), ("D", 2), ("E", 2), ("F", 2), ("G", 3)]⟩) rfl
  have h2 : following gScen1 "C" = ["G", "F", "E", "C"] :=
    following_of_fuel gScen1 "C" 40 (⟨["G", "F", "E", "C"], []⟩) rfl
  constructor
  · simp only [getBlockEvaluationOrder, evalPairs]
    rw [h1]
    rfl
  · simp only [getBlockEvaluationOrder, evalPairs]
    rw [h1, h2]
    rfl

/-- C1 counterexample: on the cyclic graph `A→B, B→C, C→B` the planner
does not fail at all — `getBlockEvaluationOrder` is a total function that
returns the list `[A, C, B]`: all three (= N) distinct blocks despite the
cycle, refuting both the promised `CyclicGraph` failure and the "exactly
N distinct blocks iff acyclic" equivalence. -/
theorem cyclic_graph_gets_full_order :
    ¬ Acyclic gCyc
    ∧ getBlockEvaluationOrder gCyc none = ["A", "C", "B"]
    ∧ (getBlockEvaluationOrder gCyc none).length = gCyc.blocks.length
    ∧ (getBlockEvaluationOrder gCyc none).Nodup := by
  have h1 : evalLevels gCyc = [("A", 0), ("B", 3), ("C", 2)] :=
    evalLevels_of_fuel gCyc 40 (⟨["C", "B", "A"], [("A", 0), ("B", 3), ("C", 2)]⟩) rfl
  have horder : getBlockEvaluationOrder gCyc none = ["A", "C", "B"] := by
    simp only [getBlockEvaluationOrder, evalPairs]
    rw [h1]
    rfl
  refine ⟨?_, horder, by rw [horder]; rfl, by rw [horder]; decide⟩
  rintro ⟨rank, h⟩
  have hBC := h "B" (by decide) "C" (by decide) (by decide)
  have hCB := h "C" (by decide) "B" (by decide) (by decide)
  omega

/-- C3 counterexample: `gStale` is acyclic, yet the returned order places
`Y` before its direct ancestor `X` (edge `X→Y`): `X` is dequeued while
its level is still 1, the longer path `A→P→Q→X` later raises `X` to
level 3, but `Y` keeps the stale level 2.  (The violation does not depend
on the modelled set-iteration order: `X` sits in the initial batch behind
`A` and is dequeued before `Q` under either order of `A`'s neighbors.) -/
theorem stale_level_breaks_topological_order :
    Acyclic gStale
    ∧ getBlockEvaluationOrder gStale none = ["A", "P", "Q", "Y", "X"]
    ∧ gStale.adj "X" "Y" = true
    ∧ (getBlockEvaluationOrder gStale none).indexOf "Y"
        < (getBlockEvaluationOrder gStale none).indexOf "X" := by
  have h1 : evalLevels gStale = [("A", 0), ("P", 1), ("X", 3), ("Q", 2), ("Y", 2)] :=
    evalLevels_of_fuel gStale 40
      (⟨["Y", "Q", "X", "P", "A"], [("A", 0), ("P", 1), ("X", 3), ("Q", 2), ("Y", 2)]⟩) rfl
  have horder : getBlockEvaluationOrder gStale none = ["A", "P", "Q", "Y", "X"] := by
    simp only [getBlockEvaluationOrder, evalPairs]
    rw [h1]
    rfl
  refine ⟨?_, horder, by decide, by rw [horder]; decide⟩
  refine ⟨fun s => if s = "A" then 0 else if s = "P" then 1 else
    if s = "Q" then 2 else if s = "X" then 3 else 4, ?_⟩
  decide

/-- C3 (amended): the returned pairs are sorted by nondecreasing computed
level (the second, deciding stable sort), so a block precedes another
only if its computed level is no larger — which, as the counterexample
shows, need not respect ancestry. -/
theorem eval_order_sorted_by_level (g : DGraph) (start : Option String) :
    (evalPairs g start).Sorted byLevel := by
  haveI : IsTotal (String × Int) byLevel := ⟨fun a b => Int.le_total a.2 b.2⟩
  haveI : IsTrans (String × Int) byLevel := ⟨fun _ _ _ hab hbc => le_trans hab hbc⟩
  simp only [evalPairs]
  exact List.sorted_insertionSort byLevel _

/-! ### The level map covers every block of an acyclic graph -/

theorem map_fst_updL {α β : Type} [DecidableEq α] (m : List (α × β)) (k : α) (v : β) :
    (updL m k v).map Prod.fst
      = if k ∈ m.map Prod.fst then m.map Prod.fst else m.map Prod.fst ++ [k] := by
  induction m with
  | nil => simp [updL]
  | cons a rest ih =>
      by_cases hak : a.1 = k
      · simp [updL, hak]
      · have : ¬ k = a.1 := fun h => hak h.symm
        simp only [updL, if_neg hak, List.map_cons, ih]
        by_cases hk : k ∈ rest.map Prod.fst <;> simp [hk, this]

theorem mem_keys_updL_self {α β : Type} [DecidableEq α] (m : List (α × β)) (k : α) (v : β) :
    k ∈ (updL m k v).map Prod.fst := by
  rw [map_fst_updL]
  by_cases hk : k ∈ m.map Prod.fst <;> simp [hk]

theorem mem_keys_updL_of_mem {α β : Type} [DecidableEq α] (m : List (α × β)) (k : α) (v : β)
    (x : α) (hx : x ∈ m.map Prod.fst) : x ∈ (updL m k v).map Prod.fst := by
  rw [map_fst_updL]
  by_cases hk : k ∈ m.map Prod.fst <;> simp [hk, hx]

theorem mem_keys_updL_cases {α β : Type} [DecidableEq α] (m : List (α × β)) (k : α) (v : β)
    (x : α) (hx : x ∈ (updL m k v).map Prod.fst) : x ∈ m.map Prod.fst ∨ x = k := by
  rw [map_fst_updL] at hx
  by_cases hk : k ∈ m.map Prod.fst
  · rw [if_pos hk] at hx; exact Or.inl hx
  · rw [if_neg hk] at hx
    rcases List.mem_append.mp hx with h | h
    · exact Or.inl h
    · exact Or.inr (by simpa using h)

theorem nodup_keys_updL {α β : Type} [DecidableEq α] (m : List (α × β)) (k : α) (v : β)
    (h : (m.map Prod.fst).Nodup) : ((updL m k v).map Prod.fst).Nodup := by
  rw [map_fst_updL]
  by_cases hk : k ∈ m.map Prod.fst
  · rwa [if_pos hk]
  · rw [if_neg hk]
    refine List.Nodup.append h (List.nodup_singleton k) fun a ha hb => ?_
    rw [List.mem_singleton] at hb
    exact hk (hb ▸ ha)

theorem mem_keys_foldl_updL_of_mem (xs : List String)
    (f : List (String × Int) → String → Int) :
    ∀ (m : List (String × Int)) (x : String), x ∈ m.map Prod.fst →
      x ∈ ((xs.foldl (fun cur v => updL cur v (f cur v)) m).map Prod.fst) := by
  induction xs with
  | nil => intro m x hx; exact hx
  | cons y ys ih =>
      intro m x hx
      exact ih _ x (mem_keys_updL_of_mem m y (f m y) x hx)

theorem mem_keys_foldl_updL_of_mem_list (xs : List String)
    (f : List (String × Int) → String → Int) :
    ∀ (m : List (String × Int)) (x : String), x ∈ xs →
      x ∈ ((xs.foldl (fun cur v => updL cur v (f cur v)) m).map Prod.fst) := by
  induction xs with
  | nil => intro m x hx; cases hx
  | cons y ys ih =>
      intro m x hx
      rcases List.mem_cons.mp hx with rfl | hx
      · exact mem_keys_foldl_updL_of_mem ys _ _ x (mem_keys_updL_self m x (f m x))
      · exact ih _ x hx

theorem mem_keys_foldl_updL_cases (xs : List String)
    (f : List (String × Int) → String → Int) :
    ∀ (m : List (String × Int)) (x : String),
      x ∈ ((xs.foldl (fun cur v => updL cur v (f cur v)) m).map Prod.fst) →
      x ∈ m.map Prod.fst ∨ x ∈ xs := by
  induction xs with
  | nil => intro m x hx; exact Or.inl hx
  | cons y ys ih =>
      intro m x hx
      rcases ih _ x hx with h | h
      · rcases mem_keys_updL_cases m y (f m y) x h with h2 | rfl
        · exact Or.inl h2
        · exact Or.inr (by simp)
      · exact Or.inr (by simp [h])

theorem nodup_keys_foldl_updL (xs : List String)
    (f : List (String × Int) → String → Int) :
    ∀ m : List (String × Int), (m.map Prod.fst).Nodup →
      ((xs.foldl (fun cur v => updL cur v (f cur v)) m).map Prod.fst).Nodup := by
  induction xs with
  | nil => intro m hm; exact hm
  | cons y ys ih =>
      intro m hm
      exact ih _ (nodup_keys_updL m y (f m y) hm)

/-- Run an invariant through the worklist loop: if a predicate on
`(queue, visited, accumulator)` is preserved by every dequeue step it
holds of the final state (whose queue is empty). -/
theorem worklist_inv (g : DGraph)
    (upd : String → List (String × Int) → List (String × Int))
    (P : List String → List String → List (String × Int) → Prop)
    (hstep : ∀ b rest visited acc, P (b :: rest) visited acc →
        P (rest ++ (g.outN b).filter fun v => !visited.contains v) (visited.insert b)
          (upd b acc))
    (queue visited : List String) (acc : List (String × Int))
    (hP : P queue visited acc) :
    P [] (worklist g upd queue visited acc).1 (worklist g upd queue visited acc).2 :=
  match queue with
  | [] => by simpa only [worklist] using hP
  | b :: rest => by
      simp only [worklist]
      exact worklist_inv g upd P hstep _ _ _ (hstep b rest visited acc hP)
  termination_by wlMeasure g queue visited
  decreasing_by exact wl_step_decreases g b rest visited

/-- The loop invariant behind completeness: queue entries are blocks and
already leveled; visited blocks are leveled; the level map's keys are
duplicate-free blocks; every source is queued or visited; every outgoing
neighbor of a visited block is queued or visited. -/
def WLInv (g : DGraph) (q v : List String) (acc : List (String × Int)) : Prop :=
  (∀ x ∈ q, x ∈ g.blocks)
  ∧ ((acc.map Prod.fst).Nodup)
  ∧ (∀ x ∈ acc.map Prod.fst, x ∈ g.blocks)
  ∧ (∀ x ∈ q, x ∈ acc.map Prod.fst)
  ∧ (∀ x ∈ v, x ∈ acc.map Prod.fst)
  ∧ (∀ s ∈ g.sources, s ∈ q ∨ s ∈ v)
  ∧ (∀ x ∈ v, ∀ y ∈ g.outN x, y ∈ q ∨ y ∈ v)

theorem WLInv_step (g : DGraph) (b : String) (rest visited : List String)
    (acc : List (String × Int)) (h : WLInv g (b :: rest) visited acc) :
    WLInv g (rest ++ (g.outN b).filter fun v => !visited.contains v) (visited.insert b)
      (levelUpd g b acc) := by
  obtain ⟨hQ, hN, hK, hQK, hVK, hS, hC⟩ := h
  have hKeq : ∀ m : List (String × Int), levelUpd g b m
      = (g.outN b).foldl
          (fun cur v => updL cur v
            (max ((lookupL m b).getD 0 + 1) ((lookupL cur v).getD (-1)))) m :=
    fun m => rfl
  have hmono : ∀ x ∈ acc.map Prod.fst, x ∈ (levelUpd g b acc).map Prod.fst := by
    intro x hx
    rw [hKeq]
    exact mem_keys_foldl_updL_of_mem _ _ _ x hx
  have houtK : ∀ y ∈ g.outN b, y ∈ (levelUpd g b acc).map Prod.fst := by
    intro y hy
    rw [hKeq]
    exact mem_keys_foldl_updL_of_mem_list _ _ _ y hy
  have hsub : ∀ x ∈ (levelUpd g b acc).map Prod.fst,
      x ∈ acc.map Prod.fst ∨ x ∈ g.outN b := by
    intro x hx
    rw [hKeq] at hx
    exact mem_keys_foldl_updL_cases _ _ _ x hx
  have houtB : ∀ y ∈ g.outN b, y ∈ g.blocks := fun y hy => (List.mem_filter.mp hy).1
  refine ⟨?_, ?_, ?_, ?_, ?_, ?_, ?_⟩
  · intro x hx
    rcases List.mem_append.mp hx with h | h
    · exact hQ x (by simp [h])
    · exact houtB x (List.mem_filter.mp h).1
  · rw [hKeq]
    exact nodup_keys_foldl_updL _ _ _ hN
  · intro x hx
    rcases hsub x hx with h | h
    · exact hK x h
    · exact houtB x h
  · intro x hx
    rcases List.mem_append.mp hx with h | h
    · exact hmono x (hQK x (by simp [h]))
    · exact houtK x (List.mem_filter.mp h).1
  · intro x hx
    rcases List.mem_insert_iff.mp hx with rfl | h
    · exact hmono x (hQK x (by simp))
    · exact hmono x (hVK x h)
  · intro s hs
    rcases hS s hs with h | h
    · rcases List.mem_cons.mp h with rfl | h2
      · exact Or.inr (List.mem_insert_self s visited)
      · exact Or.inl (List.mem_append.mpr (Or.inl h2))
    · exact Or.inr (List.mem_insert_of_mem h)
  · intro x hx y hy
    rcases List.mem_insert_iff.mp hx with rfl | hxv
    · by_cases hyv : y ∈ visited
      · exact Or.inr (List.mem_insert_of_mem hyv)
      · refine Or.inl (List.mem_append.mpr (Or.inr ?_))
        rw [List.mem_filter]
        refine ⟨hy, ?_⟩
        rw [Bool.not_eq_eq_eq_not, Bool.not_true]
        by_contra hcon
        have := List.elem_iff.mp (by
          cases hcontains : visited.contains y
          · exact absurd hcontains hcon
          · exact hcontains)
        exact hyv this
    · rcases hC x hxv y hy with h | h
      · rcases List.mem_cons.mp h with rfl | h2
        · exact Or.inr (List.mem_insert_self y visited)
        · exact Or.inl (List.mem_append.mpr (Or.inl h2))
      · exact Or.inr (List.mem_insert_of_mem h)

theorem WLInv_init (g : DGraph) (hnodup : g.blocks.Nodup) :
    WLInv g g.sources [] (initLevels g) := by
  have hkeys : (initLevels g).map Prod.fst = g.sources := by
    rw [initLevels, List.map_map]
    have hid : (Prod.fst ∘ fun b : String => (b, (0 : Int))) = id := rfl
    rw [hid, List.map_id]
  have hsrcB : ∀ s ∈ g.sources, s ∈ g.blocks := fun s hs => (List.mem_filter.mp hs).1
  refine ⟨hsrcB, ?_, ?_, ?_, by simp, fun s hs => Or.inl hs, by simp⟩
  · rw [hkeys]
    exact hnodup.filter _
  · rw [hkeys]
    exact hsrcB
  · rw [hkeys]
    exact fun x hx => hx

/-- Block-level reachability along outgoing neighbors. -/
inductive ReachF (g : DGraph) : String → String → Prop where
  | refl (a : String) : ReachF g a a
  | tail {a b c : String} : ReachF g a b → c ∈ g.outN b → ReachF g a c

theorem reach_mem_closed (g : DGraph) (S : List String)
    (hcl : ∀ x ∈ S, ∀ y ∈ g.outN x, y ∈ S) {a b : String}
    (ha : a ∈ S) (h : ReachF g a b) : b ∈ S := by
  induction h with
  | refl => exact ha
  | tail _ hmem ih => exact hcl _ ih _ hmem

/-- In a finite acyclic graph every block is reachable from some block
with no incoming neighbors. -/
theorem exists_source_reach (g : DGraph) (hacyc : Acyclic g) :
    ∀ b ∈ g.blocks, ∃ s ∈ g.sources, ReachF g s b := by
  obtain ⟨rank, hrank⟩ := hacyc
  have main : ∀ n b, b ∈ g.blocks → rank b < n → ∃ s ∈ g.sources, ReachF g s b := by
    intro n
    induction n with
    | zero => intro b _ h; omega
    | succ n ih =>
        intro b hb hlt
        by_cases hin : g.inN b = []
        · refine ⟨b, ?_, ReachF.refl b⟩
          rw [DGraph.sources, List.mem_filter]
          exact ⟨hb, by simp [hin]⟩
        · obtain ⟨u, hu⟩ := List.exists_mem_of_ne_nil _ hin
          have humem := List.mem_filter.mp hu
          have hlt2 : rank u < rank b := hrank u humem.1 b hb humem.2
          obtain ⟨s, hs, hr⟩ := ih u humem.1 (by omega)
          refine ⟨s, hs, ReachF.tail hr ?_⟩
          rw [DGraph.outN, List.mem_filter]
          exact ⟨hb, humem.2⟩
  intro b hb
  exact main (rank b + 1) b hb (by omega)

/-- C1 (amended): the planner never fails; on every *acyclic* graph with
duplicate-free block names it returns exactly N distinct blocks — the
blocks of the graph.  (The converse direction of the claim's "iff" is
false: a cyclic graph can also receive a full order, see the
counterexample.) -/
theorem eval_order_complete_of_acyclic (g : DGraph)
    (hnodup : g.blocks.Nodup) (hacyc : Acyclic g) :
    (getBlockEvaluationOrder g none).length = g.blocks.length
    ∧ (getBlockEvaluationOrder g none).Nodup
    ∧ (∀ b, b ∈ getBlockEvaluationOrder g none ↔ b ∈ g.blocks) := by
  have hfin : WLInv g [] (evalState g).1 (evalLevels g) :=
    worklist_inv g (levelUpd g) (WLInv g) (WLInv_step g) g.sources [] (initLevels g)
      (WLInv_init g hnodup)
  obtain ⟨_, hN, hK, _, hVK, hS, hC⟩ := hfin
  have hsrc : ∀ s ∈ g.sources, s ∈ (evalState g).1 :=
    fun s hs => (hS s hs).resolve_left (by simp)
  have hclosed : ∀ x ∈ (evalState g).1, ∀ y ∈ g.outN x, y ∈ (evalState g).1 :=
    fun x hx y hy => (hC x hx y hy).resolve_left (by simp)
  have hblocksvis : ∀ b ∈ g.blocks, b ∈ (evalState g).1 := by
    intro b hb
    obtain ⟨s, hs, hr⟩ := exists_source_reach g hacyc b hb
    exact reach_mem_closed g _ hclosed (hsrc s hs) hr
  have hkeysup : ∀ b ∈ g.blocks, b ∈ (evalLevels g).map Prod.fst :=
    fun b hb => hVK b (hblocksvis b hb)
  have hlen : ((evalLevels g).map Prod.fst).length = g.blocks.length :=
    Nat.le_antisymm (List.subperm_of_subset hN hK).length_le
      (List.subperm_of_subset hnodup hkeysup).length_le
  have hperm : List.Perm (evalPairs g none) (evalLevels g) :=
    (List.perm_insertionSort byLevel _).trans (List.perm_insertionSort byName _)
  have hmapperm : List.Perm (getBlockEvaluationOrder g none) ((evalLevels g).map Prod.fst) :=
    hperm.map Prod.fst
  refine ⟨?_, ?_, ?_⟩
  · rw [hmapperm.length_eq, hlen]
  · exact (hmapperm.nodup_iff).mpr hN
  · intro b
    rw [hmapperm.mem_iff]
    exact ⟨fun h => hK b h, fun h => hkeysup b h⟩

/-- C1 witness: the completeness theorem applied to the canonical
scenario-1 DAG. -/
theorem eval_order_complete_of_acyclic_witness :
    (getBlockEvaluationOrder gScen1 none).length = gScen1.blocks.length
    ∧ (getBlockEvaluationOrder gScen1 none).Nodup
    ∧ (∀ b, b ∈ getBlockEvaluationOrder gScen1 none ↔ b ∈ gScen1.blocks) :=
  eval_order_complete_of_acyclic gScen1 (by decide)
    ⟨fun s => if s = "A" then 0 else if s = "B" ∨ s = "C" then 1 else
      if s = "D" ∨ s = "E" ∨ s = "F" then 2 else 3, by decide⟩

end LlmFlow
